import Mathlib

/-!
Verification development for the colibri-examples event-streamer core.

The repository's example scripts (`examples/event-streamer/ingest-live.ts`,
`examples/event-streamer/ingest-archive.ts`) drive the `EventStreamer` /
`EventFilter` engine of the `@colibri` packages.  The engine itself is not
part of the repository's sources, so its data model and operations are
modelled here from the specification (spec.md §3–§7); the example scripts'
own code (concrete filters, the `stopLedger = latest + 5` computation, the
single-ledger archive range) is embedded from the sources directly.
-/

namespace Colibri

/-- Modelled from the spec: a typed contract value (the `xdr.ScVal` values
appearing in event topics and payloads, spec §3 RawEvent).  Structural
equality is decidable, as required by literal topic matching (§4.1). -/
inductive ScVal where
  | sym (s : String)
  | addr (s : String)
  | i128 (n : Int)
  | str (s : String)
  deriving DecidableEq, Repr

/-- Modelled from the spec: the event-type tag of a raw event (§3). -/
inductive EventType where
  | contract
  | system
  | diagnostic
  deriving DecidableEq, Repr

/-- Modelled from the spec: a raw ledger event (§3 RawEvent):
`{id, ledger, txHash, contractId, type, topic, value}`. -/
structure RawEvent where
  id : String
  ledger : Nat
  txHash : String
  contractId : String
  type : EventType
  topic : List ScVal
  value : ScVal
  deriving DecidableEq, Repr

/-- Modelled from the spec: one element of a TopicPattern (§3): a literal
value, a single-segment wildcard, or a rest-wildcard (the examples' `**`). -/
inductive PatElem where
  | lit (v : ScVal)
  | wildcard
  | restWildcard
  deriving DecidableEq, Repr

/-- Modelled from the spec (§4.1): positional pattern-vs-topic comparison.
A literal must structurally equal the event's value at that position; a
single-segment wildcard accepts any value at that position; a rest-wildcard
accepts any number (including zero) of remaining positions and terminates
the comparison successfully; a pattern without a trailing rest-wildcard
that is shorter or longer than the topic sequence never matches. -/
def topicMatches : List PatElem → List ScVal → Bool
  | [], [] => true
  | [], _ :: _ => false
  | PatElem.restWildcard :: _, _ => true
  | _ :: _, [] => false
  | PatElem.lit v :: ps, t :: ts => if v = t then topicMatches ps ts else false
  | PatElem.wildcard :: ps, _ :: ts => topicMatches ps ts

/-- Modelled from the spec (§3): an event filter: contract ids (empty set
matches all), optional event-type tag, and OR-combined alternative topic
patterns. -/
structure EventFilter where
  contractIds : List String
  type : Option EventType
  topics : List (List PatElem)

/-- Modelled from the spec (§4.1): `matches(event)`.  Non-empty
`contractIds` requires membership; the type, if set, must equal the
event's type; the event matches if any alternative pattern matches the
topic sequence. -/
def EventFilter.matches (f : EventFilter) (e : RawEvent) : Bool :=
  (f.contractIds.isEmpty || decide (e.contractId ∈ f.contractIds))
  && (match f.type with
      | none => true
      | some t => decide (t = e.type))
  && f.topics.any (fun p => topicMatches p e.topic)

/-- Modelled from the spec (§3, §7): a rest-wildcard is valid only as the
pattern's final element, so a valid pattern has none among its non-final
elements (violations are `FilterConfigError`s at construction). -/
def ValidPattern (p : List PatElem) : Bool :=
  p.dropLast.all (fun e => decide (e ≠ PatElem.restWildcard))

/-- Positional acceptance of one pattern element against one topic value:
a literal accepts exactly its structural equal, a wildcard accepts any
value (spec §4.1). -/
def elemAccepts : PatElem × ScVal → Bool
  | (PatElem.lit v, x) => decide (v = x)
  | (PatElem.wildcard, _) => true
  | (PatElem.restWildcard, _) => true

/-- Modelled from the spec (§3): the retention window snapshot
`{oldestLedger, latestLedger}` of the live backend. -/
structure RetentionWindow where
  oldestLedger : Nat
  latestLedger : Nat
  deriving DecidableEq, Repr

/-- Modelled from the spec (§4.2): `isWithinWindow(seq) := oldestLedger ≤
seq ≤ latestLedger`. -/
def isWithinWindow (w : RetentionWindow) (seq : Nat) : Bool :=
  decide (w.oldestLedger ≤ seq ∧ seq ≤ w.latestLedger)

/-- Modelled from the spec (§3 IngestionCursor): the ingestion mode. -/
inductive Mode where
  | live
  | archive
  deriving DecidableEq, Repr

/-- Modelled from the spec (§5, §7): the outcome of fetching one page of a
ledger's events: the page's raw events, or a fatal fetch failure (a
transient failure whose bounded retry budget is exhausted). -/
inductive PageFetch where
  | ok (events : List RawEvent)
  | fail
  deriving DecidableEq, Repr

/-- Modelled from the spec (§6): the static backend data a run reads: the
retention window, the chain-head sequence, and the paged per-ledger event
data served by the live and the archival source. -/
structure Backend where
  window : RetentionWindow
  headSeq : Nat
  livePages : Nat → List PageFetch
  archivePages : Nat → List PageFetch

/-- Modelled from the spec (§4.5 step 1): select the active source for the
current mode and fetch the ledger's pages. -/
def fetchPages (b : Backend) (m : Mode) (seq : Nat) : List PageFetch :=
  match m with
  | Mode.live => b.livePages seq
  | Mode.archive => b.archivePages seq

/-- Modelled from the spec (§4.5 steps 2–3): page through a ledger in page
order, keeping the events that match some registered filter; a failing
page stops consumption there, with the earlier pages' matches already
delivered (second component `false`). -/
def consumePages (fs : List EventFilter) : List PageFetch → List RawEvent × Bool
  | [] => ([], true)
  | PageFetch.fail :: _ => ([], false)
  | PageFetch.ok evs :: rest =>
    let r := consumePages fs rest
    (evs.filter (fun e => fs.any (fun f => f.matches e)) ++ r.1, r.2)

/-- The complete matched-event list of a ledger's pages, in page order,
ignoring failure markers: what a fully successful consumption delivers. -/
def fullMatched (fs : List EventFilter) : List PageFetch → List RawEvent
  | [] => []
  | PageFetch.fail :: rest => fullMatched fs rest
  | PageFetch.ok evs :: rest =>
    evs.filter (fun e => fs.any (fun f => f.matches e)) ++ fullMatched fs rest

/-- One handler invocation: the cursor's ledger sequence at delivery time
and the raw event handed to the consumer. -/
structure Delivery where
  seq : Nat
  event : RawEvent
  deriving DecidableEq, Repr

/-- Modelled from the spec (§7): the error kinds a run can surface.  Only
the two relevant to the modelled control flow appear: the strict live
entry point's window violation and the fatal ingestion failure after an
exhausted retry budget. -/
inductive IngestErr where
  | notInRetentionWindow
  | fatalIngestion
  deriving DecidableEq, Repr

/-- The observable outcome of a run: the handler-invocation trace, the
ledgers fully consumed (in order), the final cursor, the final mode, and
the surfaced error if any. -/
structure RunResult where
  trace : List Delivery
  processed : List Nat
  cursor : Nat
  mode : Mode
  err : Option IngestErr
  deriving Repr

/-- Modelled from the spec (§4.5 step 5): if in Archive mode and the next
sequence is now inside the retention window, switch to Live mode for the
next iteration; Live mode persists. -/
def nextMode (w : RetentionWindow) (m : Mode) (nseq : Nat) : Mode :=
  match m with
  | Mode.live => Mode.live
  | Mode.archive => if isWithinWindow w nseq then Mode.live else Mode.archive

/-- The mode the loop is in `k` iterations after starting at cursor `seq`
in mode `m` (each iteration applies the §4.5 step-5 rule at `seq+1`). -/
def modeFrom (w : RetentionWindow) : Mode → Nat → Nat → Mode
  | m, _, 0 => m
  | m, seq, k + 1 => modeFrom w (nextMode w m (seq + 1)) (seq + 1) k

/-- Modelled from the spec (§4.5 main loop): run the ingestion loop for
`fuel` ledgers starting at cursor `seq` in mode `m`.  Each iteration
fetches and fully pages through the ledger via the mode's source,
delivers the matching events in page order, advances the cursor only
after all pages succeeded, applies the mode-switch rule, and recurses;
a page failure surfaces a fatal error with the cursor still at the
failed ledger.  `fuel` is `stopLedger + 1 - start`, so running out of
fuel is the §4.5 step-7 termination at the inclusive stop ledger.  The
step-6 poll wait is timing-only and is not modelled: the model assumes
the ledgers up to the stop ledger become available. -/
def runFrom (b : Backend) (fs : List EventFilter) : Nat → Mode → Nat → RunResult
  | 0, m, seq => ⟨[], [], seq, m, none⟩
  | fuel + 1, m, seq =>
    let c := consumePages fs (fetchPages b m seq)
    let ds := c.1.map (fun e => Delivery.mk seq e)
    if c.2 then
      let r := runFrom b fs fuel (nextMode b.window m (seq + 1)) (seq + 1)
      ⟨ds ++ r.trace, seq :: r.processed, r.cursor, r.mode, r.err⟩
    else
      ⟨ds, [], seq, m, some IngestErr.fatalIngestion⟩

/-- Modelled from the spec (§4.4): a pure-Archive run over an explicit
range: every ledger is fetched from the archival source, with no mode
decisions. -/
def archiveOnlyRun (b : Backend) (fs : List EventFilter) : Nat → Nat → RunResult
  | 0, seq => ⟨[], [], seq, Mode.archive, none⟩
  | fuel + 1, seq =>
    let c := consumePages fs (b.archivePages seq)
    let ds := c.1.map (fun e => Delivery.mk seq e)
    if c.2 then
      let r := archiveOnlyRun b fs fuel (seq + 1)
      ⟨ds ++ r.trace, seq :: r.processed, r.cursor, r.mode, r.err⟩
    else
      ⟨ds, [], seq, Mode.archive, some IngestErr.fatalIngestion⟩

/-- Modelled from the spec (§4.5 step 3, §6): the loop with the consumer
callback threaded through: the handler is applied to each delivery
synchronously, in delivery order, its state folded along before the next
event is processed; the final handler state is returned with the run
outcome. -/
def runHandler {σ : Type} (b : Backend) (fs : List EventFilter)
    (h : σ → Delivery → σ) : Nat → Mode → Nat → σ → RunResult × σ
  | 0, m, seq, st => (⟨[], [], seq, m, none⟩, st)
  | fuel + 1, m, seq, st =>
    let c := consumePages fs (fetchPages b m seq)
    let ds := c.1.map (fun e => Delivery.mk seq e)
    let st2 := ds.foldl h st
    if c.2 then
      let r := runHandler b fs h fuel (nextMode b.window m (seq + 1)) (seq + 1) st2
      (⟨ds ++ r.1.trace, seq :: r.1.processed, r.1.cursor, r.1.mode, r.1.err⟩, r.2)
    else
      (⟨ds, [], seq, m, some IngestErr.fatalIngestion⟩, st2)

/-- Modelled from the spec (§3): `{startLedger?, stopLedger?}`;
`stopLedger` is inclusive, an omitted `startLedger` means the current
chain head. -/
structure IngestionRange where
  startLedger : Option Nat
  stopLedger : Option Nat
  deriving DecidableEq, Repr

/-- Modelled from the spec (§4.5 Startup): if `startLedger` is omitted,
begin in Live mode at the chain head; otherwise resolve the window:
inside it Live, outside it Archive. -/
def resolveStart (b : Backend) (r : IngestionRange) : Nat × Mode :=
  match r.startLedger with
  | none => (b.headSeq, Mode.live)
  | some s => if isWithinWindow b.window s then (s, Mode.live) else (s, Mode.archive)

/-- Modelled from the spec (§4.5, §6): `start(handler, range)` with an
explicit stop ledger: resolve the starting cursor and mode, then run the
loop up to the inclusive stop ledger. -/
def startRun (b : Backend) (fs : List EventFilter) (startL : Option Nat)
    (stopL : Nat) : RunResult :=
  let sm := resolveStart b ⟨startL, some stopL⟩
  runFrom b fs (stopL + 1 - sm.1) sm.2 sm.1

/-- `start` with the consumer callback threaded through. -/
def startRunHandler {σ : Type} (b : Backend) (fs : List EventFilter)
    (startL : Option Nat) (stopL : Nat) (h : σ → Delivery → σ) (st : σ) :
    RunResult × σ :=
  let sm := resolveStart b ⟨startL, some stopL⟩
  runHandler b fs h (stopL + 1 - sm.1) sm.2 sm.1 st

/-- Modelled from the spec (§4.5): the strict variant `startLive(handler,
range)` skips window resolution and fails immediately with
`NotInRetentionWindow` if the requested start precedes the window;
otherwise it runs the loop in Live mode. -/
def startLiveRun (b : Backend) (fs : List EventFilter) (startL : Option Nat)
    (stopL : Nat) : Except IngestErr RunResult :=
  let s := startL.getD b.headSeq
  if s < b.window.oldestLedger then
    Except.error IngestErr.notInRetentionWindow
  else
    Except.ok (runFrom b fs (stopL + 1 - s) Mode.live s)

/-- The events a run delivered for ledger `L`, in delivery order. -/
def deliveredAt (r : RunResult) (L : Nat) : List RawEvent :=
  (r.trace.filter (fun d => decide (d.seq = L))).map (fun d => d.event)

/-- The list of `n` consecutive ledger sequences starting at `s`. -/
def ledgerSpan : Nat → Nat → List Nat
  | _, 0 => []
  | s, n + 1 => s :: ledgerSpan (s + 1) n

/-- A page list with its transient failures cleared: the repaired backend
data a resumed run sees once the transient condition has passed (§7). -/
def repairPages : List PageFetch → List PageFetch
  | [] => []
  | PageFetch.fail :: rest => repairPages rest
  | PageFetch.ok evs :: rest => PageFetch.ok evs :: repairPages rest

/-- The backend as seen on a resumed run after the transient failures
have cleared: the same event data with the failure markers gone. -/
def repairBackend (b : Backend) : Backend :=
  ⟨b.window, b.headSeq,
   fun seq => repairPages (b.livePages seq),
   fun seq => repairPages (b.archivePages seq)⟩

/-- Modelled from the spec (§7): decoder shape-mismatch failure. -/
inductive DecodeError where
  | shapeMismatch
  deriving DecidableEq, Repr

/-- Embedded from `examples/event-streamer/ingest-archive.ts`: the KALE
contract id the example filter is bound to. -/
def kaleContractId : String := "CB23WRDQWGSP6YPMY4UV5C4OW5CBTXKYN3XEATG7KJEZCXMJBYEHOUOV"

/-- The `mint` event-name literal of the example's topic filter. -/
def mintSym : String := "mint"

/-- The `transfer` event-name literal of the live example's topic filter. -/
def transferSym : String := "transfer"

/-- The empty string (a decoded recipient must differ from it). -/
def emptyStr : String := ""

/-- Embedded from `examples/event-streamer/ingest-archive.ts` lines 46–50:
the filter `{contractIds:[KALE], type:Contract,
topics:[[literal("mint"), rest-wildcard]]}`. -/
def kaleMintFilter : EventFilter :=
  ⟨[kaleContractId], some EventType.contract,
   [[PatElem.lit (ScVal.sym mintSym), PatElem.restWildcard]]⟩

/-- Modelled from the spec (§4.6) and the archive example's decoded
fields: a decoded SAC mint domain event. -/
structure MintEvent where
  id : String
  ledger : Nat
  txHash : String
  recipient : String
  amount : Int
  asset : String
  deriving DecidableEq, Repr

/-- Modelled from the spec (§4.6): `MintEvent.fromEvent(raw)` validates
the leading `mint` literal and the topic/value shape (recipient address,
asset, i128 amount payload), producing the named-field domain event or
failing with `DecodeError` on shape mismatch. -/
def MintEvent.fromEvent (e : RawEvent) : Except DecodeError MintEvent :=
  match e.topic, e.value with
  | [ScVal.sym s, ScVal.addr toAddr, ScVal.sym asset], ScVal.i128 amt =>
    if s = mintSym then
      Except.ok ⟨e.id, e.ledger, e.txHash, toAddr, amt, asset⟩
    else
      Except.error DecodeError.shapeMismatch
  | _, _ => Except.error DecodeError.shapeMismatch

/-- Embedded from `examples/event-streamer/ingest-live.ts` lines 76–78:
the example stops five ledgers past the observed chain head:
`stopLedger = latestLedger.sequence + 5`. -/
def exampleStopLedger (head : Nat) : Nat := head + 5

/-- Embedded from `examples/event-streamer/ingest-archive.ts` lines 58–59:
the single historical ledger the archive example ingests. -/
def kaleLedger : Nat := 59895694

/-- Modelled from the spec (§7): resuming after a failure: a fresh run
from the failed run's final cursor and mode, against the backend with the
transient failures cleared. -/
def resumeRun (b : Backend) (fs : List EventFilter) (fuel : Nat) (m : Mode)
    (seq : Nat) : RunResult :=
  let r := runFrom b fs fuel m seq
  runFrom (repairBackend b) fs (seq + fuel - r.cursor) r.mode r.cursor

/-- A concrete retention window used to evaluate the theorems at concrete
inputs. -/
def witWindow : RetentionWindow := ⟨100, 200⟩

/-- A concrete backend with empty ledgers used to evaluate the theorems at
concrete inputs. -/
def witBackend : Backend := ⟨witWindow, 250, fun _ => [], fun _ => []⟩

/-- A filter accepting every event: no contract restriction, no type
restriction, one all-accepting topic pattern. -/
def anyFilter : EventFilter := ⟨[], none, [[PatElem.restWildcard]]⟩

/-- A concrete event id. -/
def evIdStr : String := "evt-1"

/-- A concrete transaction hash. -/
def txHashStr : String := "txhash"

/-- A concrete recipient address. -/
def gAddr : String := "GDEMORECIPIENT"

/-- The asset symbol of the concrete mint events. -/
def kaleSym : String := "KALE"

/-- A concrete event on ledger 151. -/
def plainEvent : RawEvent :=
  ⟨evIdStr, 151, txHashStr, kaleContractId, EventType.contract, [], ScVal.i128 1⟩

/-- A concrete backend whose live source fails on the second page of
ledger 151: used to evaluate the failure/resume theorems. -/
def failBackend : Backend :=
  ⟨witWindow, 250,
   fun seq => if seq = 151 then [PageFetch.ok [plainEvent], PageFetch.fail] else [],
   fun _ => []⟩

/-- A concrete raw KALE mint event on the example's historical ledger. -/
def kaleMintRaw : RawEvent :=
  ⟨evIdStr, kaleLedger, txHashStr, kaleContractId, EventType.contract,
   [ScVal.sym mintSym, ScVal.addr gAddr, ScVal.sym kaleSym], ScVal.i128 5⟩

/-- A concrete backend whose archival source serves nine KALE mint events
on the example's historical ledger, which lies below its retention
window. -/
def kaleBackend : Backend :=
  ⟨⟨60000000, 60000100⟩, 60000100,
   fun _ => [],
   fun seq => if seq = kaleLedger then [PageFetch.ok (List.replicate 9 kaleMintRaw)] else []⟩

/-- A concrete backend whose two sources agree everywhere: used to
evaluate the mode-switch equivalence at concrete inputs. -/
def agreeBackend : Backend := ⟨⟨100, 200⟩, 250, fun _ => [], fun _ => []⟩

/-- A pattern free of rest-wildcards matches exactly the topic sequences of
equal length that it accepts position by position. -/
theorem topicMatches_of_noRest (p : List PatElem) (t : List ScVal)
    (hnr : ∀ e ∈ p, e ≠ PatElem.restWildcard) :
    topicMatches p t = true ↔
      p.length = t.length ∧ ∀ pr ∈ p.zip t, elemAccepts pr = true := by
  induction p generalizing t with
  | nil =>
    cases t with
    | nil => simp [topicMatches]
    | cons x xs => simp [topicMatches]
  | cons e ps ih =>
    have hrest : ∀ a ∈ ps, a ≠ PatElem.restWildcard := by
      intro a ha
      exact hnr a (List.mem_cons_of_mem e ha)
    have hhead : e ≠ PatElem.restWildcard := hnr e (List.mem_cons_self e ps)
    cases t with
    | nil =>
      cases e with
      | lit v => simp [topicMatches]
      | wildcard => simp [topicMatches]
      | restWildcard => exact absurd rfl hhead
    | cons x xs =>
      have hzip : (e :: ps).zip (x :: xs) = (e, x) :: ps.zip xs := by
        simp [List.zip_cons_cons]
      cases e with
      | lit v =>
        by_cases hv : v = x
        · subst hv
          have hm : topicMatches (PatElem.lit v :: ps) (v :: xs) = topicMatches ps xs := by
            simp [topicMatches]
          rw [hm, ih xs hrest]
          constructor
          · rintro ⟨hl, hall⟩
            refine ⟨by simp [hl], ?_⟩
            intro pr hpr
            rw [hzip] at hpr
            rcases List.mem_cons.mp hpr with h | h
            · subst h
              simp [elemAccepts]
            · exact hall pr h
          · rintro ⟨hl, hall⟩
            refine ⟨by simpa using hl, ?_⟩
            intro pr hpr
            exact hall pr (by rw [hzip]; exact List.mem_cons_of_mem _ hpr)
        · have hm : topicMatches (PatElem.lit v :: ps) (x :: xs) = false := by
            simp [topicMatches, hv]
          rw [hm]
          constructor
          · intro h
            cases h
          · rintro ⟨hl, hall⟩
            have hacc : elemAccepts (PatElem.lit v, x) = true :=
              hall _ (by rw [hzip]; exact List.mem_cons_self _ _)
            simp [elemAccepts] at hacc
            exact absurd hacc hv
      | wildcard =>
        have hm : topicMatches (PatElem.wildcard :: ps) (x :: xs) = topicMatches ps xs := rfl
        rw [hm, ih xs hrest]
        constructor
        · rintro ⟨hl, hall⟩
          refine ⟨by simp [hl], ?_⟩
          intro pr hpr
          rw [hzip] at hpr
          rcases List.mem_cons.mp hpr with h | h
          · subst h
            simp [elemAccepts]
          · exact hall pr h
        · rintro ⟨hl, hall⟩
          refine ⟨by simpa using hl, ?_⟩
          intro pr hpr
          exact hall pr (by rw [hzip]; exact List.mem_cons_of_mem _ hpr)
      | restWildcard => exact absurd rfl hhead

/-- A valid pattern whose last element is not a rest-wildcard has no
rest-wildcard at all. -/
theorem noRest_of_valid (p : List PatElem)
    (hv : ValidPattern p = true)
    (hlast : p.getLast? ≠ some PatElem.restWildcard) :
    ∀ e ∈ p, e ≠ PatElem.restWildcard := by
  intro e he
  have hne : p ≠ [] := by
    rintro rfl
    simp at he
  have hsplit := List.dropLast_append_getLast hne
  rw [← hsplit] at he
  rcases List.mem_append.mp he with hmem | hmem
  · have := (List.all_eq_true.mp hv) e hmem
    simpa using this
  · have heq : e = p.getLast hne := by simpa using hmem
    subst heq
    intro hrw
    exact hlast (by rw [List.getLast?_eq_getLast p hne, hrw])

/-- A fully successful page consumption delivers exactly the complete
matched-event list of the ledger, in page order. -/
theorem consumePages_ok_eq_fullMatched (fs : List EventFilter)
    (pages : List PageFetch) (hok : (consumePages fs pages).2 = true) :
    (consumePages fs pages).1 = fullMatched fs pages := by
  induction pages with
  | nil => rfl
  | cons p rest ih =>
    cases p with
    | ok evs =>
      simp only [consumePages, fullMatched] at *
      rw [ih hok]
    | fail => simp [consumePages] at hok

/-- Whatever a (possibly failing) page consumption delivers is an initial
segment of the ledger's complete matched-event list. -/
theorem consumePages_initial (fs : List EventFilter) (pages : List PageFetch) :
    ∃ t, (consumePages fs pages).1 ++ t = fullMatched fs pages := by
  induction pages with
  | nil => exact ⟨[], rfl⟩
  | cons p rest ih =>
    cases p with
    | ok evs =>
      rcases ih with ⟨t, ht⟩
      refine ⟨t, ?_⟩
      simp only [consumePages, fullMatched, List.append_assoc, ht]
    | fail => exact ⟨fullMatched fs rest, rfl⟩

/-- Consuming a repaired page list succeeds and delivers the complete
matched-event list of the original pages. -/
theorem consumePages_repair (fs : List EventFilter) (pages : List PageFetch) :
    consumePages fs (repairPages pages) = (fullMatched fs pages, true) := by
  induction pages with
  | nil => rfl
  | cons p rest ih =>
    cases p with
    | ok evs =>
      simp only [repairPages, consumePages, fullMatched, ih]
    | fail => simpa [repairPages, fullMatched] using ih

/-- Every delivery of a run carries a ledger sequence between the starting
cursor and the last in-range ledger. -/
theorem runFrom_trace_bounds (b : Backend) (fs : List EventFilter)
    (fuel : Nat) (m : Mode) (seq : Nat) :
    ∀ d ∈ (runFrom b fs fuel m seq).trace, seq ≤ d.seq ∧ d.seq < seq + fuel := by
  induction fuel generalizing m seq with
  | zero =>
    intro d hd
    simp [runFrom] at hd
  | succ fuel ih =>
    intro d hd
    simp only [runFrom] at hd
    by_cases hc : (consumePages fs (fetchPages b m seq)).2 = true
    · rw [if_pos hc] at hd
      simp only [List.mem_append] at hd
      rcases hd with hd | hd
      · rcases List.mem_map.mp hd with ⟨e, _, rfl⟩
        exact ⟨Nat.le_refl seq, Nat.lt_succ_of_le (Nat.le_add_right seq fuel)⟩
      · have := ih (nextMode b.window m (seq + 1)) (seq + 1) d hd
        omega
    · rw [if_neg hc] at hd
      rcases List.mem_map.mp hd with ⟨e, _, rfl⟩
      exact ⟨Nat.le_refl seq, Nat.lt_succ_of_le (Nat.le_add_right seq fuel)⟩

/-- The final cursor of a run lies between the start and one past the
last in-range ledger. -/
theorem runFrom_cursor_bounds (b : Backend) (fs : List EventFilter)
    (fuel : Nat) (m : Mode) (seq : Nat) :
    seq ≤ (runFrom b fs fuel m seq).cursor ∧
      (runFrom b fs fuel m seq).cursor ≤ seq + fuel := by
  induction fuel generalizing m seq with
  | zero => simp [runFrom]
  | succ fuel ih =>
    simp only [runFrom]
    by_cases hc : (consumePages fs (fetchPages b m seq)).2 = true
    · rw [if_pos hc]
      have := ih (nextMode b.window m (seq + 1)) (seq + 1)
      simp only []
      omega
    · rw [if_neg hc]
      simp only []
      omega

/-- A run that surfaces no error has advanced its cursor one past the
inclusive stop ledger. -/
theorem runFrom_success_cursor (b : Backend) (fs : List EventFilter)
    (fuel : Nat) (m : Mode) (seq : Nat)
    (h : (runFrom b fs fuel m seq).err = none) :
    (runFrom b fs fuel m seq).cursor = seq + fuel := by
  induction fuel generalizing m seq with
  | zero => simp [runFrom]
  | succ fuel ih =>
    simp only [runFrom] at *
    by_cases hc : (consumePages fs (fetchPages b m seq)).2 = true
    · rw [if_pos hc] at *
      have := ih (nextMode b.window m (seq + 1)) (seq + 1) h
      simp only [] at *
      omega
    · rw [if_neg hc] at h
      simp at h

/-- Unfolding the mode iteration by one step. -/
theorem modeFrom_succ (w : RetentionWindow) (m : Mode) (seq k : Nat) :
    modeFrom w m seq (k + 1) = modeFrom w (nextMode w m (seq + 1)) (seq + 1) k := rfl

/-- The mode iteration starts at the given mode. -/
theorem modeFrom_zero (w : RetentionWindow) (m : Mode) (seq : Nat) :
    modeFrom w m seq 0 = m := rfl

/-- A run that surfaces an error surfaces the fatal ingestion error, with
the cursor still at the failed in-range ledger, in the loop's mode for
that ledger, whose page consumption indeed failed. -/
theorem runFrom_fail_spec (b : Backend) (fs : List EventFilter)
    (fuel : Nat) (m : Mode) (seq : Nat) (e : IngestErr)
    (h : (runFrom b fs fuel m seq).err = some e) :
    e = IngestErr.fatalIngestion ∧
    seq ≤ (runFrom b fs fuel m seq).cursor ∧
    (runFrom b fs fuel m seq).cursor < seq + fuel ∧
    (runFrom b fs fuel m seq).mode =
      modeFrom b.window m seq ((runFrom b fs fuel m seq).cursor - seq) ∧
    (consumePages fs (fetchPages b (runFrom b fs fuel m seq).mode
      (runFrom b fs fuel m seq).cursor)).2 = false := by
  induction fuel generalizing m seq with
  | zero => simp [runFrom] at h
  | succ fuel ih =>
    simp only [runFrom] at *
    by_cases hc : (consumePages fs (fetchPages b m seq)).2 = true
    · rw [if_pos hc] at *
      simp only [] at *
      have hcur := runFrom_cursor_bounds b fs fuel (nextMode b.window m (seq + 1)) (seq + 1)
      rcases ih (nextMode b.window m (seq + 1)) (seq + 1) h with ⟨he, h1, h2, h3, h4⟩
      refine ⟨he, by omega, by omega, ?_, h4⟩
      have hk : (runFrom b fs fuel (nextMode b.window m (seq + 1)) (seq + 1)).cursor - seq =
          ((runFrom b fs fuel (nextMode b.window m (seq + 1)) (seq + 1)).cursor - (seq + 1)) + 1 := by
        omega
      rw [hk, modeFrom_succ]
      exact h3
    · rw [if_neg hc] at *
      simp only [] at *
      have he : e = IngestErr.fatalIngestion := by
        cases h
        rfl
      refine ⟨he, Nat.le_refl seq, Nat.lt_succ_of_le (Nat.le_add_right seq fuel), ?_, ?_⟩
      · simp [modeFrom_zero]
      · simpa using hc

/-- No delivery of a run carries a ledger sequence past the final cursor. -/
theorem runFrom_trace_le_cursor (b : Backend) (fs : List EventFilter)
    (fuel : Nat) (m : Mode) (seq : Nat) :
    ∀ d ∈ (runFrom b fs fuel m seq).trace, d.seq ≤ (runFrom b fs fuel m seq).cursor := by
  induction fuel generalizing m seq with
  | zero =>
    intro d hd
    simp [runFrom] at hd
  | succ fuel ih =>
    intro d hd
    simp only [runFrom] at *
    by_cases hc : (consumePages fs (fetchPages b m seq)).2 = true
    · rw [if_pos hc] at *
      simp only [List.mem_append] at hd
      have hcur := runFrom_cursor_bounds b fs fuel (nextMode b.window m (seq + 1)) (seq + 1)
      rcases hd with hd | hd
      · rcases List.mem_map.mp hd with ⟨ev, _, rfl⟩
        simp only []
        omega
      · exact ih (nextMode b.window m (seq + 1)) (seq + 1) d hd
    · rw [if_neg hc] at *
      rcases List.mem_map.mp hd with ⟨ev, _, rfl⟩
      simp only []
      exact Nat.le_refl seq

/-- A run delivers nothing for a ledger none of its deliveries mention. -/
theorem deliveredAt_eq_nil (r : RunResult) (L : Nat)
    (h : ∀ d ∈ r.trace, d.seq ≠ L) : deliveredAt r L = [] := by
  have hf : r.trace.filter (fun d => decide (d.seq = L)) = [] := by
    rw [List.filter_eq_nil_iff]
    intro d hd
    simpa using h d hd
  simp [deliveredAt, hf]

/-- For every ledger strictly before the final cursor, the run consumed
all pages successfully (in that ledger's loop mode) and delivered exactly
its complete matched-event list. -/
theorem runFrom_deliveredAt_consumed (b : Backend) (fs : List EventFilter)
    (fuel : Nat) (m : Mode) (seq : Nat) (L : Nat)
    (hL1 : seq ≤ L) (hL2 : L < (runFrom b fs fuel m seq).cursor) :
    (consumePages fs (fetchPages b (modeFrom b.window m seq (L - seq)) L)).2 = true ∧
    deliveredAt (runFrom b fs fuel m seq) L =
      fullMatched fs (fetchPages b (modeFrom b.window m seq (L - seq)) L) := by
  induction fuel generalizing m seq with
  | zero =>
    simp only [runFrom] at hL2
    omega
  | succ fuel ih =>
    simp only [runFrom] at *
    by_cases hc : (consumePages fs (fetchPages b m seq)).2 = true
    · rw [if_pos hc] at *
      simp only [] at hL2
      by_cases hLs : L = seq
      · subst hLs
        have hk : L - L = 0 := by omega
        rw [hk, modeFrom_zero]
        refine ⟨hc, ?_⟩
        have hbound := runFrom_trace_bounds b fs fuel (nextMode b.window m (L + 1)) (L + 1)
        have hds : ((consumePages fs (fetchPages b m L)).1.map
            (fun e => Delivery.mk L e)).filter (fun d => decide (d.seq = L)) =
            (consumePages fs (fetchPages b m L)).1.map (fun e => Delivery.mk L e) := by
          rw [List.filter_eq_self]
          intro d hd
          rcases List.mem_map.mp hd with ⟨ev, _, rfl⟩
          simp
        have htl : (runFrom b fs fuel (nextMode b.window m (L + 1)) (L + 1)).trace.filter
            (fun d => decide (d.seq = L)) = [] := by
          rw [List.filter_eq_nil_iff]
          intro d hd
          have := hbound d hd
          simp only [decide_eq_true_eq]
          omega
        simp only [deliveredAt, List.filter_append, hds, htl, List.append_nil,
          List.map_map]
        rw [consumePages_ok_eq_fullMatched fs _ hc,
          show ((fun d => d.event) ∘ fun e => Delivery.mk L e) = id from rfl,
          List.map_id]
      · have hL1' : seq + 1 ≤ L := by omega
        have hk : L - seq = (L - (seq + 1)) + 1 := by omega
        rw [hk, modeFrom_succ]
        have hds : ((consumePages fs (fetchPages b m seq)).1.map
            (fun e => Delivery.mk seq e)).filter (fun d => decide (d.seq = L)) = [] := by
          rw [List.filter_eq_nil_iff]
          intro d hd
          rcases List.mem_map.mp hd with ⟨ev, _, rfl⟩
          simp only [decide_eq_true_eq]
          omega
        have := ih (nextMode b.window m (seq + 1)) (seq + 1) hL1' hL2
        refine ⟨this.1, ?_⟩
        simp only [deliveredAt, List.filter_append, hds, List.nil_append]
        exact this.2
    · rw [if_neg hc] at *
      simp only [] at hL2
      omega

/-- Whatever a run delivers for any ledger is an initial segment of that
ledger's complete matched-event list (in the loop's mode for it), in page
order. -/
theorem runFrom_deliveredAt_initial (b : Backend) (fs : List EventFilter)
    (fuel : Nat) (m : Mode) (seq : Nat) (L : Nat) :
    ∃ t, deliveredAt (runFrom b fs fuel m seq) L ++ t =
      fullMatched fs (fetchPages b (modeFrom b.window m seq (L - seq)) L) := by
  induction fuel generalizing m seq with
  | zero =>
    refine ⟨fullMatched fs (fetchPages b (modeFrom b.window m seq (L - seq)) L), ?_⟩
    rw [deliveredAt_eq_nil _ _ (by intro d hd; simp [runFrom] at hd), List.nil_append]
  | succ fuel ih =>
    simp only [runFrom]
    by_cases hc : (consumePages fs (fetchPages b m seq)).2 = true
    · rw [if_pos hc]
      by_cases hLs : L = seq
      · subst hLs
        have hcur := runFrom_cursor_bounds b fs (fuel + 1) m L
        have : L < (runFrom b fs (fuel + 1) m L).cursor := by
          have hcv := runFrom_cursor_bounds b fs fuel (nextMode b.window m (L + 1)) (L + 1)
          simp only [runFrom, if_pos hc] at *
          omega
        have hcons := runFrom_deliveredAt_consumed b fs (fuel + 1) m L L
          (Nat.le_refl L) this
        refine ⟨[], ?_⟩
        rw [List.append_nil]
        have := hcons.2
        simp only [runFrom, if_pos hc] at this
        exact this
      · by_cases hlt : L < seq
        · refine ⟨fullMatched fs (fetchPages b (modeFrom b.window m seq (L - seq)) L), ?_⟩
          rw [deliveredAt_eq_nil, List.nil_append]
          intro d hd
          simp only [List.mem_append] at hd
          rcases hd with hd | hd
          · rcases List.mem_map.mp hd with ⟨ev, _, rfl⟩
            simp only []
            omega
          · have := runFrom_trace_bounds b fs fuel (nextMode b.window m (seq + 1)) (seq + 1) d hd
            omega
        · have hL1' : seq + 1 ≤ L := by omega
          have hk : L - seq = (L - (seq + 1)) + 1 := by omega
          rw [hk, modeFrom_succ]
          rcases ih (nextMode b.window m (seq + 1)) (seq + 1) with ⟨t, ht⟩
          refine ⟨t, ?_⟩
          have hds : ((consumePages fs (fetchPages b m seq)).1.map
              (fun e => Delivery.mk seq e)).filter (fun d => decide (d.seq = L)) = [] := by
            rw [List.filter_eq_nil_iff]
            intro d hd
            rcases List.mem_map.mp hd with ⟨ev, _, rfl⟩
            simp only [decide_eq_true_eq]
            omega
          simp only [deliveredAt, List.filter_append, hds, List.nil_append] at *
          exact ht
    · rw [if_neg hc]
      by_cases hLs : L = seq
      · subst hLs
        have hk : L - L = 0 := by omega
        rw [hk, modeFrom_zero]
        rcases consumePages_initial fs (fetchPages b m L) with ⟨t, ht⟩
        refine ⟨t, ?_⟩
        have hds : ((consumePages fs (fetchPages b m L)).1.map
            (fun e => Delivery.mk L e)).filter (fun d => decide (d.seq = L)) =
            (consumePages fs (fetchPages b m L)).1.map (fun e => Delivery.mk L e) := by
          rw [List.filter_eq_self]
          intro d hd
          rcases List.mem_map.mp hd with ⟨ev, _, rfl⟩
          simp
        simp only [deliveredAt, hds, List.map_map]
        rw [show ((fun d => d.event) ∘ fun e => Delivery.mk L e) = id from rfl,
          List.map_id]
        exact ht
      · refine ⟨fullMatched fs (fetchPages b (modeFrom b.window m seq (L - seq)) L), ?_⟩
        rw [deliveredAt_eq_nil, List.nil_append]
        intro d hd
        rcases List.mem_map.mp hd with ⟨ev, _, rfl⟩
        simp only []
        omega

/-- Threading the consumer callback through the loop does not change the
run outcome: the handler-free loop is the projection of the loop with the
handler. -/
theorem runHandler_run {σ : Type} (b : Backend) (fs : List EventFilter)
    (h : σ → Delivery → σ) (fuel : Nat) (m : Mode) (seq : Nat) (st : σ) :
    (runHandler b fs h fuel m seq st).1 = runFrom b fs fuel m seq := by
  induction fuel generalizing m seq st with
  | zero => rfl
  | succ fuel ih =>
    simp only [runHandler, runFrom]
    by_cases hc : (consumePages fs (fetchPages b m seq)).2 = true
    · rw [if_pos hc, if_pos hc]
      simp only [ih]
    · rw [if_neg hc, if_neg hc]

/-- The handler is applied synchronously along the delivery order: the
final handler state is the fold of the handler over the run's trace. -/
theorem runHandler_state {σ : Type} (b : Backend) (fs : List EventFilter)
    (h : σ → Delivery → σ) (fuel : Nat) (m : Mode) (seq : Nat) (st : σ) :
    (runHandler b fs h fuel m seq st).2 =
      (runFrom b fs fuel m seq).trace.foldl h st := by
  induction fuel generalizing m seq st with
  | zero => rfl
  | succ fuel ih =>
    simp only [runHandler, runFrom]
    by_cases hc : (consumePages fs (fetchPages b m seq)).2 = true
    · rw [if_pos hc, if_pos hc]
      simp only [List.foldl_append, ih]
    · rw [if_neg hc, if_neg hc]

/-- Live mode persists across the mode iteration. -/
theorem modeFrom_live (w : RetentionWindow) (seq k : Nat) :
    modeFrom w Mode.live seq k = Mode.live := by
  induction k generalizing seq with
  | zero => rfl
  | succ k ih =>
    rw [modeFrom_succ]
    exact ih (seq + 1)

/-- The mode iteration is in Live mode exactly when it started there or
some already-passed next-sequence fell inside the retention window. -/
theorem modeFrom_eq_live_iff (w : RetentionWindow) (m : Mode) (seq k : Nat) :
    modeFrom w m seq k = Mode.live ↔
      (m = Mode.live ∨ ∃ j, 1 ≤ j ∧ j ≤ k ∧ isWithinWindow w (seq + j) = true) := by
  induction k generalizing m seq with
  | zero =>
    rw [modeFrom_zero]
    constructor
    · intro h
      exact Or.inl h
    · rintro (h | ⟨j, hj1, hj2, _⟩)
      · exact h
      · omega
  | succ k ih =>
    rw [modeFrom_succ, ih]
    constructor
    · rintro (h | ⟨j, hj1, hj2, hj3⟩)
      · cases m with
        | live => exact Or.inl rfl
        | archive =>
          right
          refine ⟨1, Nat.le_refl 1, by omega, ?_⟩
          by_contra hw
          simp only [nextMode] at h
          rw [if_neg hw] at h
          exact Mode.noConfusion h
      · right
        refine ⟨j + 1, by omega, by omega, ?_⟩
        rw [show seq + (j + 1) = seq + 1 + j from by omega]
        exact hj3
    · rintro (h | ⟨j, hj1, hj2, hj3⟩)
      · subst h
        exact Or.inl rfl
      · by_cases hj : j = 1
        · subst hj
          left
          cases m with
          | live => rfl
          | archive =>
            simp only [nextMode]
            rw [if_pos (by simpa using hj3)]
        · right
          refine ⟨j - 1, by omega, by omega, ?_⟩
          rw [show seq + 1 + (j - 1) = seq + j from by omega]
          exact hj3

/-- `ledgerSpan` lists exactly `n` sequences. -/
theorem ledgerSpan_length (s n : Nat) : (ledgerSpan s n).length = n := by
  induction n generalizing s with
  | zero => rfl
  | succ n ih => simp [ledgerSpan, ih]

/-- `ledgerSpan s n` lists exactly the sequences from `s` through
`s + n - 1`. -/
theorem ledgerSpan_mem (s n L : Nat) : L ∈ ledgerSpan s n ↔ s ≤ L ∧ L < s + n := by
  induction n generalizing s with
  | zero =>
    simp [ledgerSpan]
  | succ n ih =>
    simp [ledgerSpan, ih]
    omega

/-- A run started and kept in Live mode with every live fetch succeeding
processes every ledger of its range, in order, and surfaces no error. -/
theorem runFrom_live_processed (b : Backend) (fs : List EventFilter)
    (fuel seq : Nat)
    (hok : ∀ L, (consumePages fs (b.livePages L)).2 = true) :
    (runFrom b fs fuel Mode.live seq).processed = ledgerSpan seq fuel ∧
    (runFrom b fs fuel Mode.live seq).err = none := by
  induction fuel generalizing seq with
  | zero => exact ⟨rfl, rfl⟩
  | succ fuel ih =>
    simp only [runFrom]
    have hc : (consumePages fs (fetchPages b Mode.live seq)).2 = true := hok seq
    rw [if_pos hc, show nextMode b.window Mode.live (seq + 1) = Mode.live from rfl]
    rcases ih (seq + 1) with ⟨h1, h2⟩
    exact ⟨by simp [ledgerSpan, h1], h2⟩

/-- The ingestion loop never surfaces `NotInRetentionWindow`. -/
theorem runFrom_err_not_window (b : Backend) (fs : List EventFilter)
    (fuel : Nat) (m : Mode) (seq : Nat) :
    (runFrom b fs fuel m seq).err ≠ some IngestErr.notInRetentionWindow := by
  intro h
  rcases runFrom_fail_spec b fs fuel m seq _ h with ⟨he, _⟩
  exact IngestErr.noConfusion he

/-- A total relation is pairwise on every list. -/
theorem pairwise_of_all {α : Type} (R : α → α → Prop) (l : List α)
    (h : ∀ a c, R a c) : List.Pairwise R l := by
  induction l with
  | nil => exact List.Pairwise.nil
  | cons x xs ih => exact List.Pairwise.cons (fun y _ => h x y) ih

/-- Across all handler invocations of a run, the delivered ledger
sequences are non-decreasing. -/
theorem runFrom_trace_sorted (b : Backend) (fs : List EventFilter)
    (fuel : Nat) (m : Mode) (seq : Nat) :
    List.Pairwise (fun d1 d2 => d1.seq ≤ d2.seq) (runFrom b fs fuel m seq).trace := by
  induction fuel generalizing m seq with
  | zero => simp [runFrom]
  | succ fuel ih =>
    simp only [runFrom]
    by_cases hc : (consumePages fs (fetchPages b m seq)).2 = true
    · rw [if_pos hc]
      simp only []
      rw [List.pairwise_append]
      refine ⟨?_, ih (nextMode b.window m (seq + 1)) (seq + 1), ?_⟩
      · rw [List.pairwise_map]
        exact pairwise_of_all _ _ (fun a c => Nat.le_refl seq)
      · intro d1 h1 d2 h2
        rcases List.mem_map.mp h1 with ⟨ev, _, rfl⟩
        have := runFrom_trace_bounds b fs fuel (nextMode b.window m (seq + 1)) (seq + 1) d2 h2
        simp only []
        omega
    · rw [if_neg hc]
      simp only []
      rw [List.pairwise_map]
      exact pairwise_of_all _ _ (fun a c => Nat.le_refl seq)

/-- If the run stays below the retention window's top and the two sources
agree on every in-window ledger of the range, the mode-switching run and
the pure-Archive run deliver identically. -/
theorem runFrom_agree_archive (b : Backend) (fs : List EventFilter)
    (fuel : Nat) (m : Mode) (seq : Nat)
    (hm : m = Mode.archive ∨ b.window.oldestLedger ≤ seq)
    (hstop : seq + fuel ≤ b.window.latestLedger + 1)
    (hag : ∀ L, seq ≤ L → L < seq + fuel → isWithinWindow b.window L = true →
      b.livePages L = b.archivePages L) :
    (runFrom b fs fuel m seq).trace = (archiveOnlyRun b fs fuel seq).trace ∧
    (runFrom b fs fuel m seq).processed = (archiveOnlyRun b fs fuel seq).processed ∧
    (runFrom b fs fuel m seq).cursor = (archiveOnlyRun b fs fuel seq).cursor ∧
    (runFrom b fs fuel m seq).err = (archiveOnlyRun b fs fuel seq).err := by
  induction fuel generalizing m seq with
  | zero => exact ⟨rfl, rfl, rfl, rfl⟩
  | succ fuel ih =>
    have hfetch : fetchPages b m seq = b.archivePages seq := by
      cases m with
      | archive => rfl
      | live =>
        rcases hm with hm | hold
        · exact Mode.noConfusion hm
        · have hwin : isWithinWindow b.window seq = true := by
            simp only [isWithinWindow, decide_eq_true_eq]
            omega
          have := hag seq (Nat.le_refl seq) (by omega) hwin
          simpa [fetchPages] using this
    simp only [runFrom, archiveOnlyRun, hfetch]
    by_cases hc : (consumePages fs (b.archivePages seq)).2 = true
    · rw [if_pos hc, if_pos hc]
      have hm' : nextMode b.window m (seq + 1) = Mode.archive ∨
          b.window.oldestLedger ≤ seq + 1 := by
        cases m with
        | live =>
          rcases hm with hm | hold
          · exact Mode.noConfusion hm
          · right
            omega
        | archive =>
          by_cases hw : isWithinWindow b.window (seq + 1) = true
          · right
            simp only [isWithinWindow, decide_eq_true_eq] at hw
            omega
          · left
            simp only [nextMode]
            rw [if_neg hw]
      have hag' : ∀ L, seq + 1 ≤ L → L < seq + 1 + fuel →
          isWithinWindow b.window L = true → b.livePages L = b.archivePages L := by
        intro L h1 h2 h3
        exact hag L (by omega) (by omega) h3
      rcases ih (nextMode b.window m (seq + 1)) (seq + 1) hm' (by omega) hag'
        with ⟨h1, h2, h3, h4⟩
      exact ⟨by simp [h1], by simp [h2], h3, h4⟩
    · rw [if_neg hc, if_neg hc]
      exact ⟨rfl, rfl, rfl, rfl⟩

/-- The mode iteration composes: iterating `a + c` steps is iterating `c`
steps from the state reached after `a` steps. -/
theorem modeFrom_add (w : RetentionWindow) (m : Mode) (s a c : Nat) :
    modeFrom w m s (a + c) = modeFrom w (modeFrom w m s a) (s + a) c := by
  induction a generalizing m s with
  | zero => simp [modeFrom_zero]
  | succ a ih =>
    rw [show a + 1 + c = (a + c) + 1 from by omega, modeFrom_succ, ih, modeFrom_succ,
      show s + 1 + a = s + (a + 1) from by omega]

/-- Fetching from the repaired backend serves the repaired page list of
the original backend, whichever the mode. -/
theorem fetchPages_repair (b : Backend) (m : Mode) (seq : Nat) :
    fetchPages (repairBackend b) m seq = repairPages (fetchPages b m seq) := by
  cases m <;> rfl

/-- Repairing the pages does not change the complete matched-event list. -/
theorem fullMatched_repair (fs : List EventFilter) (pages : List PageFetch) :
    fullMatched fs (repairPages pages) = fullMatched fs pages := by
  induction pages with
  | nil => rfl
  | cons p rest ih =>
    cases p with
    | ok evs => simp [repairPages, fullMatched, ih]
    | fail => simpa [repairPages, fullMatched] using ih

/-- A run against the repaired backend consumes its whole range. -/
theorem runFrom_repair_success (b : Backend) (fs : List EventFilter)
    (fuel : Nat) (m : Mode) (seq : Nat) :
    (runFrom (repairBackend b) fs fuel m seq).err = none ∧
    (runFrom (repairBackend b) fs fuel m seq).cursor = seq + fuel := by
  induction fuel generalizing m seq with
  | zero => exact ⟨rfl, rfl⟩
  | succ fuel ih =>
    simp only [runFrom]
    have hc : (consumePages fs (fetchPages (repairBackend b) m seq)).2 = true := by
      rw [fetchPages_repair, consumePages_repair]
    rw [if_pos hc]
    rcases ih (nextMode (repairBackend b).window m (seq + 1)) (seq + 1) with ⟨h1, h2⟩
    refine ⟨h1, ?_⟩
    simp only []
    omega

/-- One full iteration of the loop, unfolded. -/
theorem runFrom_one (b : Backend) (fs : List EventFilter) (m : Mode) (seq : Nat) :
    runFrom b fs 1 m seq =
      (let c := consumePages fs (fetchPages b m seq)
       let ds := c.1.map (fun e => Delivery.mk seq e)
       if c.2 then ⟨ds ++ [], [seq], seq + 1, nextMode b.window m (seq + 1), none⟩
       else ⟨ds, [], seq, m, some IngestErr.fatalIngestion⟩) := rfl

/-- A mode is Archive exactly when it is not Live. -/
theorem mode_eq_archive_iff_ne_live (m : Mode) : m = Mode.archive ↔ ¬ m = Mode.live := by
  cases m <;> simp

/-- C1: for every call to start(handler, range): if startLedger is
omitted, the run begins in Live mode at the current chain head; if
startLedger is given, the retention window is resolved and the run begins
in Live mode when oldestLedger ≤ startLedger ≤ latestLedger, and in
Archive mode when startLedger is older than oldestLedger. -/
theorem c1_startup_mode (b : Backend) (s : Nat) (stopO : Option Nat) :
    resolveStart b ⟨none, stopO⟩ = (b.headSeq, Mode.live) ∧
    (isWithinWindow b.window s = true →
      resolveStart b ⟨some s, stopO⟩ = (s, Mode.live)) ∧
    (s < b.window.oldestLedger →
      resolveStart b ⟨some s, stopO⟩ = (s, Mode.archive)) := by
  refine ⟨rfl, ?_, ?_⟩
  · intro h
    simp [resolveStart, h]
  · intro h
    have hw : isWithinWindow b.window s = false := by
      simp only [isWithinWindow, decide_eq_false_iff_not]
      omega
    simp [resolveStart, hw]

/-- Witness for C1: the concrete backend with window [100,200] and head
250 starts at the head in Live mode with the start omitted, in Live mode
at the in-window start 150, and in Archive mode at the older start 50. -/
theorem c1_startup_mode_witness :
    resolveStart witBackend ⟨none, none⟩ = (witBackend.headSeq, Mode.live) ∧
    resolveStart witBackend ⟨some 150, none⟩ = (150, Mode.live) ∧
    resolveStart witBackend ⟨some 50, none⟩ = (50, Mode.archive) :=
  ⟨(c1_startup_mode witBackend 150 none).1,
   (c1_startup_mode witBackend 150 none).2.1 (by decide),
   (c1_startup_mode witBackend 50 none).2.2 (by decide)⟩

/-- C2: for every TopicPattern whose last element is not a rest-wildcard
(rest-wildcards being valid only in final position per the data model)
and every topic sequence, the filter's pattern matching holds iff the
lengths are equal and every position accepts the topic value there —
literals by structural equality, single-segment wildcards accepting any
value; in particular a shorter or longer pattern never matches. -/
theorem c2_no_rest_matching (p : List PatElem) (t : List ScVal)
    (hv : ValidPattern p = true)
    (hlast : p.getLast? ≠ some PatElem.restWildcard) :
    (topicMatches p t = true ↔
      p.length = t.length ∧ ∀ pr ∈ p.zip t, elemAccepts pr = true) ∧
    (p.length ≠ t.length → topicMatches p t = false) := by
  have hnr := noRest_of_valid p hv hlast
  have hiff := topicMatches_of_noRest p t hnr
  refine ⟨hiff, ?_⟩
  intro hne
  cases h : topicMatches p t
  · rfl
  · exact absurd (hiff.mp h).1 hne

/-- Witness for C2 at the concrete pattern [literal "transfer", wildcard]
against the topic ["transfer", 3]: the equivalence and the
length-mismatch conclusion instantiate. -/
theorem c2_no_rest_matching_witness :
    (topicMatches [PatElem.lit (ScVal.sym transferSym), PatElem.wildcard]
        [ScVal.sym transferSym, ScVal.i128 3] = true ↔
      ([PatElem.lit (ScVal.sym transferSym), PatElem.wildcard] : List PatElem).length =
          ([ScVal.sym transferSym, ScVal.i128 3] : List ScVal).length ∧
        ∀ pr ∈ ([PatElem.lit (ScVal.sym transferSym), PatElem.wildcard] :
            List PatElem).zip [ScVal.sym transferSym, ScVal.i128 3],
          elemAccepts pr = true) ∧
    (([PatElem.lit (ScVal.sym transferSym), PatElem.wildcard] : List PatElem).length ≠
        ([ScVal.sym transferSym, ScVal.i128 3] : List ScVal).length →
      topicMatches [PatElem.lit (ScVal.sym transferSym), PatElem.wildcard]
        [ScVal.sym transferSym, ScVal.i128 3] = false) :=
  c2_no_rest_matching [PatElem.lit (ScVal.sym transferSym), PatElem.wildcard]
    [ScVal.sym transferSym, ScVal.i128 3] (by decide) (by decide)

/-- C3: the pattern [literal "transfer", rest-wildcard] matches exactly
the topic sequences of length at least 1 whose first element structurally
equals "transfer" — the rest-wildcard accepts zero remaining segments, so
sequences of length exactly 1 are included. -/
theorem c3_transfer_rest_pattern (t : List ScVal) :
    topicMatches [PatElem.lit (ScVal.sym transferSym), PatElem.restWildcard] t = true ↔
      1 ≤ t.length ∧ t.head? = some (ScVal.sym transferSym) := by
  cases t with
  | nil =>
    simp [topicMatches]
  | cons x xs =>
    have hrest : topicMatches [PatElem.restWildcard] xs = true := by
      cases xs <;> rfl
    by_cases hx : ScVal.sym transferSym = x
    · subst hx
      simp [topicMatches, hrest]
    · simp only [topicMatches, if_neg hx]
      constructor
      · intro h
        exact Bool.noConfusion h
      · rintro ⟨-, hh⟩
        have hxv : x = ScVal.sym transferSym := by simpa using hh
        exact absurd hxv.symm hx

/-- C4: across all handler invocations of a run the delivered ledger
sequences are non-decreasing; within one ledger the deliveries form an
initial segment of the ledger's matched events in the source's page
order; and the handler is invoked synchronously — its state is folded
along the delivery order, each invocation completing before the next
event is processed. -/
theorem c4_delivery_order {σ : Type} (b : Backend) (fs : List EventFilter)
    (fuel : Nat) (m : Mode) (seq : Nat) (h : σ → Delivery → σ) (st : σ) :
    List.Pairwise (fun d1 d2 => d1.seq ≤ d2.seq) (runFrom b fs fuel m seq).trace ∧
    (∀ L, ∃ t, deliveredAt (runFrom b fs fuel m seq) L ++ t =
      fullMatched fs (fetchPages b (modeFrom b.window m seq (L - seq)) L)) ∧
    (runHandler b fs h fuel m seq st).2 = (runFrom b fs fuel m seq).trace.foldl h st :=
  ⟨runFrom_trace_sorted b fs fuel m seq,
   fun L => runFrom_deliveredAt_initial b fs fuel m seq L,
   runHandler_state b fs h fuel m seq st⟩

/-- C7: the strict entry point startLive fails immediately with
NotInRetentionWindow whenever the requested start ledger precedes the
retention window, while start() itself never surfaces
NotInRetentionWindow. -/
theorem c7_strict_live_window (b : Backend) (fs : List EventFilter)
    (s stopL : Nat) (sl : Option Nat) :
    (s < b.window.oldestLedger →
      startLiveRun b fs (some s) stopL = Except.error IngestErr.notInRetentionWindow) ∧
    (startRun b fs sl stopL).err ≠ some IngestErr.notInRetentionWindow := by
  constructor
  · intro h
    simp [startLiveRun, h]
  · exact runFrom_err_not_window b fs _ _ _

/-- Witness for C7: on the concrete backend with window [100,200], the
strict live start at 50 fails with NotInRetentionWindow, while start()
over the same backend never surfaces that error. -/
theorem c7_strict_live_window_witness :
    startLiveRun witBackend [] (some 50) 60 = Except.error IngestErr.notInRetentionWindow ∧
    (startRun witBackend [] none 60).err ≠ some IngestErr.notInRetentionWindow :=
  ⟨(c7_strict_live_window witBackend [] 50 60 none).1 (by decide),
   (c7_strict_live_window witBackend [] 50 60 none).2⟩

/-- C5: the cursor passes a ledger only after all its pages were consumed
without error, delivering its complete matched-event list; a failure
leaves the cursor at the failing ledger, whose consumption indeed failed,
so the ledger is not marked consumed; resuming from the final cursor once
the transient failures cleared delivers every not-yet-consumed ledger of
the range in full — so each ledger is delivered in full by the original
run or the resumption: at-least-once delivery with no ledger partially,
silently dropped. -/
theorem c5_at_least_once (b : Backend) (fs : List EventFilter)
    (fuel : Nat) (m : Mode) (seq : Nat) :
    (∀ L, seq ≤ L → L < (runFrom b fs fuel m seq).cursor →
      (consumePages fs (fetchPages b (modeFrom b.window m seq (L - seq)) L)).2 = true ∧
      deliveredAt (runFrom b fs fuel m seq) L =
        fullMatched fs (fetchPages b (modeFrom b.window m seq (L - seq)) L)) ∧
    (∀ e, (runFrom b fs fuel m seq).err = some e →
      (runFrom b fs fuel m seq).cursor < seq + fuel ∧
      (consumePages fs (fetchPages b (runFrom b fs fuel m seq).mode
        (runFrom b fs fuel m seq).cursor)).2 = false) ∧
    (∀ L, (runFrom b fs fuel m seq).cursor ≤ L → L < seq + fuel →
      deliveredAt (resumeRun b fs fuel m seq) L =
        fullMatched fs (fetchPages b (modeFrom b.window m seq (L - seq)) L)) ∧
    (∀ L, seq ≤ L → L < seq + fuel →
      deliveredAt (runFrom b fs fuel m seq) L =
        fullMatched fs (fetchPages b (modeFrom b.window m seq (L - seq)) L) ∨
      deliveredAt (resumeRun b fs fuel m seq) L =
        fullMatched fs (fetchPages b (modeFrom b.window m seq (L - seq)) L)) := by
  have hpart1 := fun L h1 h2 => runFrom_deliveredAt_consumed b fs fuel m seq L h1 h2
  have hpart2 : ∀ e, (runFrom b fs fuel m seq).err = some e →
      (runFrom b fs fuel m seq).cursor < seq + fuel ∧
      (consumePages fs (fetchPages b (runFrom b fs fuel m seq).mode
        (runFrom b fs fuel m seq).cursor)).2 = false := by
    intro e he
    rcases runFrom_fail_spec b fs fuel m seq e he with ⟨-, -, h2, -, h4⟩
    exact ⟨h2, h4⟩
  have hpart3 : ∀ L, (runFrom b fs fuel m seq).cursor ≤ L → L < seq + fuel →
      deliveredAt (resumeRun b fs fuel m seq) L =
        fullMatched fs (fetchPages b (modeFrom b.window m seq (L - seq)) L) := by
    intro L hL1 hL2
    cases he : (runFrom b fs fuel m seq).err with
    | none =>
      have := runFrom_success_cursor b fs fuel m seq he
      omega
    | some e =>
      rcases runFrom_fail_spec b fs fuel m seq e he with ⟨-, hc1, hc2, hmode, -⟩
      have hres := runFrom_repair_success b fs
        (seq + fuel - (runFrom b fs fuel m seq).cursor)
        (runFrom b fs fuel m seq).mode (runFrom b fs fuel m seq).cursor
      have hL3 : L < (runFrom (repairBackend b) fs
          (seq + fuel - (runFrom b fs fuel m seq).cursor)
          (runFrom b fs fuel m seq).mode (runFrom b fs fuel m seq).cursor).cursor := by
        rw [hres.2]
        omega
      have hcons := runFrom_deliveredAt_consumed (repairBackend b) fs
        (seq + fuel - (runFrom b fs fuel m seq).cursor)
        (runFrom b fs fuel m seq).mode (runFrom b fs fuel m seq).cursor L hL1 hL3
      have heq : deliveredAt (resumeRun b fs fuel m seq) L =
          fullMatched fs (fetchPages (repairBackend b)
            (modeFrom (repairBackend b).window (runFrom b fs fuel m seq).mode
              (runFrom b fs fuel m seq).cursor (L - (runFrom b fs fuel m seq).cursor)) L) :=
        hcons.2
      rw [heq, fetchPages_repair, fullMatched_repair]
      rw [show (repairBackend b).window = b.window from rfl, hmode]
      have hadd := modeFrom_add b.window m seq ((runFrom b fs fuel m seq).cursor - seq)
        (L - (runFrom b fs fuel m seq).cursor)
      rw [show seq + ((runFrom b fs fuel m seq).cursor - seq) =
        (runFrom b fs fuel m seq).cursor from by omega] at hadd
      rw [← hadd, show (runFrom b fs fuel m seq).cursor - seq +
        (L - (runFrom b fs fuel m seq).cursor) = L - seq from by omega]
  refine ⟨hpart1, hpart2, hpart3, ?_⟩
  intro L h1 h2
  by_cases hc : L < (runFrom b fs fuel m seq).cursor
  · exact Or.inl (hpart1 L h1 hc).2
  · exact Or.inr (hpart3 L (by omega) h2)

/-- Witness for C5: on the concrete backend failing on ledger 151's
second page, the run over ledgers 150–152 halts with its cursor at 151,
and the resumed run delivers ledger 151 in full. -/
theorem c5_at_least_once_witness :
    (runFrom failBackend [anyFilter] 3 Mode.live 150).cursor ≤ 151 ∧ 151 < 150 + 3 ∧
    deliveredAt (resumeRun failBackend [anyFilter] 3 Mode.live 150) 151 =
      fullMatched [anyFilter]
        (fetchPages failBackend (modeFrom failBackend.window Mode.live 150 (151 - 150)) 151) :=
  ⟨by decide, by decide,
   (c5_at_least_once failBackend [anyFilter] 3 Mode.live 150).2.2.1 151
     (by decide) (by decide)⟩

/-- C6: with retention window [oldest 100, latest 200] and range
[start 50, stop 150], the run begins in Archive mode, is in Archive mode
exactly while the cursor is below 100 — switching to Live exactly when
the cursor reaches 100 — and, when the archival and live sources agree on
the in-window ledgers, the delivered sequence is identical to that of a
pure-Archive run over [50,150]. -/
theorem c6_mode_switch (b : Backend) (fs : List EventFilter)
    (hw : b.window = ⟨100, 200⟩)
    (hag : ∀ L, 100 ≤ L → L ≤ 150 → b.livePages L = b.archivePages L) :
    resolveStart b ⟨some 50, some 150⟩ = (50, Mode.archive) ∧
    (∀ L, 50 ≤ L → L ≤ 150 →
      (modeFrom b.window Mode.archive 50 (L - 50) = Mode.archive ↔ L < 100)) ∧
    (startRun b fs (some 50) 150).trace = (archiveOnlyRun b fs 101 50).trace := by
  have hwl : isWithinWindow b.window 50 = false := by
    rw [hw]
    decide
  have hres : resolveStart b ⟨some 50, some 150⟩ = (50, Mode.archive) := by
    simp [resolveStart, hwl]
  refine ⟨hres, ?_, ?_⟩
  · intro L h1 h2
    rw [hw, mode_eq_archive_iff_ne_live, modeFrom_eq_live_iff]
    constructor
    · intro h
      by_contra hL
      push_neg at hL
      refine h (Or.inr ⟨L - 50, by omega, by omega, ?_⟩)
      simp only [isWithinWindow, decide_eq_true_eq]
      constructor
      · show 100 ≤ 50 + (L - 50)
        omega
      · show 50 + (L - 50) ≤ 200
        omega
    · intro hL
      rintro (h | ⟨j, hj1, hj2, hj3⟩)
      · exact Mode.noConfusion h
      · simp only [isWithinWindow, decide_eq_true_eq] at hj3
        have hj3' : 100 ≤ 50 + j ∧ 50 + j ≤ 200 := hj3
        omega
  · have hstart : startRun b fs (some 50) 150 = runFrom b fs 101 Mode.archive 50 := by
      simp [startRun, hres]
    rw [hstart]
    have hagg : ∀ L, 50 ≤ L → L < 50 + 101 → isWithinWindow b.window L = true →
        b.livePages L = b.archivePages L := by
      intro L h1 h2 h3
      rw [hw] at h3
      simp only [isWithinWindow, decide_eq_true_eq] at h3
      have h3' : 100 ≤ L ∧ L ≤ 200 := h3
      exact hag L h3'.1 (by omega)
    exact (runFrom_agree_archive b fs 101 Mode.archive 50 (Or.inl rfl)
      (by rw [hw]; decide) hagg).1

/-- Witness for C6: on the concrete backend with window [100,200] whose
two sources agree everywhere, the instantiated startup mode, switch
point, and trace equivalence hold. -/
theorem c6_mode_switch_witness :
    resolveStart agreeBackend ⟨some 50, some 150⟩ = (50, Mode.archive) ∧
    (∀ L, 50 ≤ L → L ≤ 150 →
      (modeFrom agreeBackend.window Mode.archive 50 (L - 50) = Mode.archive ↔ L < 100)) ∧
    (startRun agreeBackend [] (some 50) 150).trace =
      (archiveOnlyRun agreeBackend [] 101 50).trace :=
  c6_mode_switch agreeBackend [] rfl (fun _ _ _ => rfl)

/-- C8: with the archive example's filter and single-ledger range over the
historical KALE ledger, where that ledger (below the retention window)
carries exactly nine qualifying raw events — matching the filter and
decoding to mint events with a non-empty recipient and strictly positive
amount — the run completes, the handler is invoked exactly nine times,
and each invocation yields such a decoded mint event. -/
theorem c8_kale_mint_run (b : Backend) (es : List RawEvent)
    (hout : kaleLedger < b.window.oldestLedger)
    (hpages : consumePages [kaleMintFilter] (b.archivePages kaleLedger) = (es, true))
    (hlen : es.length = 9)
    (hdec : ∀ e ∈ es, ∃ mv : MintEvent, MintEvent.fromEvent e = Except.ok mv ∧
      mv.recipient ≠ emptyStr ∧ 0 < mv.amount) :
    (startRun b [kaleMintFilter] (some kaleLedger) kaleLedger).err = none ∧
    (startRun b [kaleMintFilter] (some kaleLedger) kaleLedger).trace.length = 9 ∧
    ∀ d ∈ (startRun b [kaleMintFilter] (some kaleLedger) kaleLedger).trace,
      ∃ mv : MintEvent, MintEvent.fromEvent d.event = Except.ok mv ∧
        mv.recipient ≠ emptyStr ∧ 0 < mv.amount := by
  have hwf : isWithinWindow b.window kaleLedger = false := by
    simp only [isWithinWindow, decide_eq_false_iff_not]
    omega
  have hres : resolveStart b ⟨some kaleLedger, some kaleLedger⟩ =
      (kaleLedger, Mode.archive) := by
    simp [resolveStart, hwf]
  have hstart : startRun b [kaleMintFilter] (some kaleLedger) kaleLedger =
      runFrom b [kaleMintFilter] 1 Mode.archive kaleLedger := by
    simp [startRun, hres, Nat.add_sub_cancel_left]
  have hfetch : fetchPages b Mode.archive kaleLedger = b.archivePages kaleLedger := rfl
  rw [hstart, runFrom_one]
  simp only [hfetch, hpages]
  rw [if_pos trivial]
  refine ⟨rfl, ?_, ?_⟩
  · simp [hlen]
  · intro d hd
    simp only [List.append_nil, List.mem_map] at hd
    rcases hd with ⟨e, he, rfl⟩
    exact hdec e he

/-- Witness for C8: the concrete backend serving nine identical KALE mint
raw events on the historical ledger satisfies the scenario, so the
instantiated run completes with nine qualifying decoded deliveries. -/
theorem c8_kale_mint_run_witness :
    (startRun kaleBackend [kaleMintFilter] (some kaleLedger) kaleLedger).err = none ∧
    (startRun kaleBackend [kaleMintFilter] (some kaleLedger) kaleLedger).trace.length = 9 ∧
    ∀ d ∈ (startRun kaleBackend [kaleMintFilter] (some kaleLedger) kaleLedger).trace,
      ∃ mv : MintEvent, MintEvent.fromEvent d.event = Except.ok mv ∧
        mv.recipient ≠ emptyStr ∧ 0 < mv.amount :=
  c8_kale_mint_run kaleBackend (List.replicate 9 kaleMintRaw)
    (by decide) (by decide) (by decide)
    (by
      intro e he
      have heq := List.eq_of_mem_replicate he
      subst heq
      exact ⟨⟨evIdStr, kaleLedger, txHashStr, gAddr, 5, kaleSym⟩, rfl,
        by decide, by decide⟩)

/-- C9: over a fixed historical range with both endpoints given and static
backend data, any two runs of start() — whatever the consumer callback
and its starting state — produce identical, identically ordered delivery
traces, and hence identical sequences of decoded events under any pure
decoder. -/
theorem c9_deterministic {σ₁ σ₂ : Type} (b : Backend) (fs : List EventFilter)
    (s stopL : Nat) (h₁ : σ₁ → Delivery → σ₁) (h₂ : σ₂ → Delivery → σ₂)
    (st₁ : σ₁) (st₂ : σ₂) :
    (startRunHandler b fs (some s) stopL h₁ st₁).1.trace =
      (startRunHandler b fs (some s) stopL h₂ st₂).1.trace ∧
    ∀ (α : Type) (dec : RawEvent → α),
      (startRunHandler b fs (some s) stopL h₁ st₁).1.trace.map (fun d => dec d.event) =
      (startRunHandler b fs (some s) stopL h₂ st₂).1.trace.map (fun d => dec d.event) := by
  have e1 : (startRunHandler b fs (some s) stopL h₁ st₁).1 = startRun b fs (some s) stopL :=
    runHandler_run b fs h₁ _ _ _ st₁
  have e2 : (startRunHandler b fs (some s) stopL h₂ st₂).1 = startRun b fs (some s) stopL :=
    runHandler_run b fs h₂ _ _ _ st₂
  exact ⟨by rw [e1, e2], fun α dec => by rw [e1, e2]⟩

/-- C10: in the live-ingestion example, start() is called with startLedger
omitted and stopLedger set to the observed chain head plus five; when the
head has not advanced at resolution time, the run begins at the head and
— stopLedger being inclusive — processes exactly the six ledger sequences
from the head through the head plus five, not five. -/
theorem c10_live_stop_inclusive (b : Backend) (fs : List EventFilter)
    (hok : ∀ L, (consumePages fs (b.livePages L)).2 = true) :
    (startRun b fs none (exampleStopLedger b.headSeq)).err = none ∧
    (startRun b fs none (exampleStopLedger b.headSeq)).processed =
      ledgerSpan b.headSeq 6 ∧
    (startRun b fs none (exampleStopLedger b.headSeq)).processed.length = 6 ∧
    (∀ L, L ∈ (startRun b fs none (exampleStopLedger b.headSeq)).processed ↔
      b.headSeq ≤ L ∧ L ≤ b.headSeq + 5) := by
  have hfuel : exampleStopLedger b.headSeq + 1 - b.headSeq = 6 := by
    simp only [exampleStopLedger]
    omega
  have hstart : startRun b fs none (exampleStopLedger b.headSeq) =
      runFrom b fs (exampleStopLedger b.headSeq + 1 - b.headSeq) Mode.live b.headSeq := rfl
  rcases runFrom_live_processed b fs 6 b.headSeq hok with ⟨h1, h2⟩
  rw [hstart, hfuel, h1]
  refine ⟨h2, rfl, ledgerSpan_length _ _, ?_⟩
  intro L
  rw [ledgerSpan_mem]
  omega

/-- Witness for C10: on the concrete backend with head 250 and empty
ledgers the run processes exactly the six ledgers 250 through 255. -/
theorem c10_live_stop_inclusive_witness :
    (startRun witBackend [] none (exampleStopLedger witBackend.headSeq)).err = none ∧
    (startRun witBackend [] none (exampleStopLedger witBackend.headSeq)).processed =
      ledgerSpan witBackend.headSeq 6 ∧
    (startRun witBackend [] none (exampleStopLedger witBackend.headSeq)).processed.length = 6 ∧
    (∀ L, L ∈ (startRun witBackend [] none (exampleStopLedger witBackend.headSeq)).processed ↔
      witBackend.headSeq ≤ L ∧ L ≤ witBackend.headSeq + 5) :=
  c10_live_stop_inclusive witBackend [] (fun _ => rfl)
